import Mathlib

/-!
Shallow embedding of lmfit models.py: the model catalog, the shared peak
estimation heuristic and the starting-value guess procedures.

Modelling conventions: Python floats are modelled as exact rationals; the
transcendental functions np.log and np.exp are abstract parameters
(log exp : ℚ → ℚ) of the definitions that use them; raised exceptions are
modelled by none / Except.error; the model prefix (self.prefix) is passed
explicitly as pfx.
-/

namespace Lmfit

/-- Python builtin max over a list, as used in models.py (max(y), max(x),
max(data)).  none models the ValueError raised on an empty sequence. -/
def pymax : List ℚ → Option ℚ
  | [] => none
  | a :: t => some (t.foldl max a)

/-- Python builtin min over a list.  none models the ValueError raised on an
empty sequence. -/
def pymin : List ℚ → Option ℚ
  | [] => none
  | a :: t => some (t.foldl min a)

/-- np.argmin over a list: index of the first occurrence of the minimum.
none models the error on an empty array. -/
def argminIdx (l : List ℚ) : Option Nat :=
  match pymin l with
  | none => none
  | some m => some (l.findIdx (fun a => decide (a = m)))

/-- models.py 15-20, index_of(arr, val): return 0 if val < min(arr), else
np.abs(arr - val).argmin().  none models the ValueError raised by min on an
empty sequence. -/
def index_of (arr : List ℚ) (val : ℚ) : Option Nat :=
  match pymin arr with
  | none => none
  | some m =>
    if val < m then some 0
    else argminIdx (arr.map (fun a => |a - val|))

/-- models.py 22-40, estimate_peak(y, x, negative).  x = none models
x is None (fixed neutral guess).  none in the result models an uncaught
error (empty input, or an x too short for an index taken from y).  The
reassignment of imaxy inside the negative branch (line 35) is a dead store
in the source: it is mirrored here by a discarded bind. -/
def estimate_peak (y : List ℚ) (x : Option (List ℚ)) (negative : Bool) :
    Option (ℚ × ℚ × ℚ) :=
  match x with
  | none => some (1, 0, 1)
  | some xs => do
    let maxy ← pymax y
    let miny ← pymin y
    let maxx ← pymax xs
    let minx ← pymin xs
    let imaxy ← index_of y maxy
    let cen ← xs.get? imaxy
    let amp0 := (maxy - miny) * (3 / 2)
    let sig0 := (maxx - minx) / 6
    let hm0 := (List.range y.length).filter
      (fun i => decide ((maxy + miny) / 2 < y.getD i 0))
    let state ←
      if negative then do
        let _ ← index_of y miny
        pure (-(maxy - miny) * (3 / 2),
          (List.range y.length).filter
            (fun i => decide (y.getD i 0 < (maxy + miny) / 2)))
      else pure (amp0, hm0)
    let sig ←
      if 2 < state.2.length then do
        let xlast ← xs.get? (state.2.getLastD 0)
        let xfirst ← xs.get? (state.2.headD 0)
        pure ((xlast - xfirst) / 2)
      else pure sig0
    return (state.1, cen, sig)

/-- np.polyfit(x, y, 1): ordinary least squares for a degree-1 polynomial,
coefficients returned highest power first (slope, intercept).  none models
the exceptions polyfit raises: x is None, a length mismatch, empty input,
or the all-zero x column (whose normalisation produces NaNs and makes lstsq
raise).  When the normal equations are otherwise singular (all x equal,
nonzero) lstsq does not raise and returns a least-squares solution; one such
solution is used here (no theorem depends on its value). -/
def polyfit1 (x : Option (List ℚ)) (y : List ℚ) : Option (ℚ × ℚ) :=
  match x with
  | none => none
  | some xs =>
    if xs.length = y.length ∧ 0 < y.length then
      let n : ℚ := (y.length : ℚ)
      let sx := xs.sum
      let sy := y.sum
      let sxx := (xs.map (fun a => a * a)).sum
      let sxy := ((xs.zip y).map (fun p => p.1 * p.2)).sum
      let den := n * sxx - sx * sx
      if den = 0 then
        let a := xs.headD 0
        if a = 0 then none
        else some (a * (sy / n) / (a * a + 1), (sy / n) / (a * a + 1))
      else
        some ((n * sxy - sx * sy) / den, (sxx * sy - sx * sxy) / den)
    else none

/-- A guess procedure run: whether the except branch was taken, and the
(name, value) pairs written into self.params, in source order. -/
structure GuessResult where
  fellBack : Bool
  writes : List (String × ℚ)
  deriving DecidableEq

/-- models.py 181-188, PowerLawModel.guess_starting_values with np.log and
np.exp abstract.  The name log used in the try body is unbound in models.py
(the module imports only np, Model and the lineshape functions), so
evaluating the try body raises NameError and the bare except always runs;
the try branch is therefore modelled as none.  The parameter keys are
written without the model prefix, exactly as in the source
(self.params["amplitude"], self.params["exponent"]); pfx models self.prefix
and is unused.  none models the uncaught ValueError of max on empty data
inside the handler. -/
def powerLawGuess (_pfx : String) (log exp : ℚ → ℚ) (data : List ℚ)
    (_x : Option (List ℚ)) : Option GuessResult :=
  let tryResult : Option (ℚ × ℚ) := none
  match tryResult with
  | some p => some ⟨false, [("amplitude", exp p.2), ("exponent", p.1)]⟩
  | none =>
    (pymax data).map (fun m =>
      ⟨true, [("amplitude", exp (log (|m + 1e-9|))), ("exponent", 1)]⟩)

/-- models.py 195-202, the regression core of
ExponentialModel.guess_starting_values: the fitted (sval, oval) pair and
whether the except branch ran.  The try body is
np.polyfit(x, np.log(abs(data) + 1e-15), 1); the except branch sets
sval = 1 and oval = np.log(abs(max(data) + 1e-9)). -/
def exponentialGuessRaw (log : ℚ → ℚ) (data : List ℚ)
    (x : Option (List ℚ)) : Option (ℚ × ℚ × Bool) :=
  match polyfit1 x (data.map (fun v => log (|v| + 1e-15))) with
  | some p => some (p.1, p.2, false)
  | none => (pymax data).map (fun m => (1, log (|m + 1e-9|), true))

/-- models.py 195-202, ExponentialModel.guess_starting_values: writes
amplitude = np.exp(oval) and decay = -1/sval.  The keys are unprefixed in
the source (self.params["amplitude"], self.params["decay"]); pfx models
self.prefix and is unused. -/
def exponentialGuess (_pfx : String) (log exp : ℚ → ℚ) (data : List ℚ)
    (x : Option (List ℚ)) : Option GuessResult :=
  (exponentialGuessRaw log data x).map (fun t =>
    ⟨t.2.2, [("amplitude", exp t.2.1), ("decay", -1 / t.1)]⟩)

/-- A Python number as passed for the deg argument of
PolynomialModel.__init__: an int, or a float (never an instance of int). -/
inductive PyNum where
  | int : ℤ → PyNum
  | float : ℚ → PyNum
  deriving DecidableEq

/-- models.py 99-103: MAX_DEGREE = 7 and the check
"if not isinstance(deg, int) or deg > self.MAX_DEGREE: raise TypeError".
true means construction proceeds. -/
def polynomialDegreeAccepted : PyNum → Bool
  | .int n => decide (n ≤ 7)
  | .float _ => false

/-- models.py 10-13, _validate_1d: raise DimensionalError unless the
independent variable list has exactly one entry. -/
def _validate_1d (independent_vars : List String) : Except String Unit :=
  if independent_vars.length ≠ 1 then
    Except.error ("This model requires exactly one independent variable.")
  else Except.ok ()

/-- Modelled from the spec: Model construction (lmfit model.py, not under
src) validates the supplied independent-variable names via _validate_1d
before anything else happens; the error propagates to the caller (spec
section 7: never recovered internally), and only on success does
construction complete so that a guess can later run. -/
def modelConstructThenGuess {α : Type} (independent_vars : List String)
    (guess : Unit → α) : Except String α :=
  match _validate_1d independent_vars with
  | Except.error e => Except.error e
  | Except.ok _ => Except.ok (guess ())

/-- The half-max index set as the spec states it (4.2 step 5b): all sample
indices whose y value is above (below, if negative) the midpoint of the y
extrema, in sample order. -/
def halfmaxIdxs (y : List ℚ) (negative : Bool) (maxy miny : ℚ) : List ℕ :=
  if negative then
    (List.range y.length).filter (fun i => decide (y.getD i 0 < (maxy + miny) / 2))
  else
    (List.range y.length).filter (fun i => decide ((maxy + miny) / 2 < y.getD i 0))

/-- The width selection rule as the spec states it (4.2 step 5): half the
independent-variable span between the first and last half-max index when
more than two such indices exist, else the default (maxx - minx)/6. -/
def specWidth (y xs : List ℚ) (negative : Bool) (maxy miny maxx minx : ℚ) : ℚ :=
  let hm := halfmaxIdxs y negative maxy miny
  if 2 < hm.length then (xs.getD (hm.getLastD 0) 0 - xs.getD (hm.headD 0) 0) / 2
  else (maxx - minx) / 6

/-- Parameter store keyed by exact composed name (spec section 6); modelled
as a total valuation, externally owned. -/
def Store := String → ℚ

/-- Set-by-name of a numeric value in the store. -/
def setParam (s : Store) (nm : String) (v : ℚ) : Store :=
  fun k => if k = nm then v else s k

/-- Apply a guess procedure write list to the store, in order. -/
def applyWrites (s : Store) (ws : List (String × ℚ)) : Store :=
  ws.foldl (fun acc w => setParam acc w.1 w.2) s

/-- A derived-parameter registration: target name, constant factor, operand
name (the structured reading of an expr string "factor*operand"). -/
structure Constraint where
  target : String
  factor : ℚ
  operand : String

/-- GaussianModel.__init__ (models.py 131-135): fwhm_factor = 2.354820 and
params.add of prefix+fwhm with expr built from "%.6f*%ssigma", which
renders the factor as the decimal 2.354820. -/
def gaussianFwhm (pfx : String) : Constraint :=
  ⟨pfx ++ "fwhm", 2.354820, pfx ++ "sigma"⟩

/-- LorentzianModel.__init__ (146-151): fwhm_factor = 2.0, rendered by
"%.7f" as 2.0000000. -/
def lorentzianFwhm (pfx : String) : Constraint :=
  ⟨pfx ++ "fwhm", 2, pfx ++ "sigma"⟩

/-- VoigtModel.__init__ (162-167): fwhm_factor = 3.60131, rendered by
"%.7f" as 3.6013100. -/
def voigtFwhm (pfx : String) : Constraint :=
  ⟨pfx ++ "fwhm", 3.60131, pfx ++ "sigma"⟩

/-- Modelled from the spec: the external Parameters store recomputes an
expression-bound parameter from its operand whenever a dependency changes
(spec sections 4.4 and 6); it never accepts an independent assignment for
the target. -/
def applyConstraint (c : Constraint) (s : Store) : Store :=
  setParam s c.target (c.factor * s c.operand)

/-- The guess_starting_values shared verbatim by GaussianModel (137-142),
LorentzianModel (153-158) and VoigtModel (169-174): the writes are
prefix+amplitude, prefix+center, prefix+sigma from estimate_peak, in source
order; fwhm is never written. -/
def peakGuessWrites (pfx : String) (data : List ℚ) (x : Option (List ℚ))
    (negative : Bool) : Option (List (String × ℚ)) :=
  (estimate_peak data x negative).map (fun t =>
    [(pfx ++ "amplitude", t.1), (pfx ++ "center", t.2.1), (pfx ++ "sigma", t.2.2)])

theorem foldl_min_le_init (t : List ℚ) (a : ℚ) : t.foldl min a ≤ a := by
  induction t generalizing a with
  | nil => simp
  | cons b t ih => exact le_trans (ih (min a b)) (min_le_left a b)

theorem foldl_min_le_mem (t : List ℚ) (a b : ℚ) (hb : b ∈ t) : t.foldl min a ≤ b := by
  induction t generalizing a with
  | nil => cases hb
  | cons c t ih =>
    rcases List.mem_cons.mp hb with h | h
    · subst h; exact le_trans (foldl_min_le_init t (min a b)) (min_le_right a b)
    · exact ih (min a c) h

theorem foldl_min_mem (t : List ℚ) (a : ℚ) : t.foldl min a = a ∨ t.foldl min a ∈ t := by
  induction t generalizing a with
  | nil => exact Or.inl rfl
  | cons b t ih =>
    rcases ih (min a b) with h | h
    · rcases min_choice a b with hab | hab
      · exact Or.inl (by rw [List.foldl_cons, h, hab])
      · exact Or.inr (by rw [List.foldl_cons, h, hab]; exact List.mem_cons_self b t)
    · exact Or.inr (List.mem_cons_of_mem b h)

theorem pymin_spec (l : List ℚ) (m : ℚ) (h : pymin l = some m) :
    m ∈ l ∧ ∀ b ∈ l, m ≤ b := by
  match l with
  | [] => simp [pymin] at h
  | a :: t =>
    simp only [pymin, Option.some.injEq] at h
    subst h
    constructor
    · rcases foldl_min_mem t a with h | h
      · rw [h]; exact List.mem_cons_self a t
      · exact List.mem_cons_of_mem a h
    · intro b hb
      rcases List.mem_cons.mp hb with h | h
      · subst h; exact foldl_min_le_init t b
      · exact foldl_min_le_mem t a b h

theorem pymin_eq_of (l : List ℚ) (m : ℚ) (hmem : m ∈ l)
    (hle : ∀ b ∈ l, m ≤ b) : pymin l = some m := by
  match l with
  | [] => cases hmem
  | a :: t =>
    obtain ⟨hmem2, hle2⟩ := pymin_spec (a :: t) (t.foldl min a) rfl
    exact congrArg some (le_antisymm (hle _ hmem2) (hle2 m hmem)).symm ▸ rfl

theorem foldl_max_init_le (t : List ℚ) (a : ℚ) : a ≤ t.foldl max a := by
  induction t generalizing a with
  | nil => simp
  | cons b t ih => exact le_trans (le_max_left a b) (ih (max a b))

theorem foldl_max_mem_le (t : List ℚ) (a b : ℚ) (hb : b ∈ t) : b ≤ t.foldl max a := by
  induction t generalizing a with
  | nil => cases hb
  | cons c t ih =>
    rcases List.mem_cons.mp hb with h | h
    · subst h; exact le_trans (le_max_right a b) (foldl_max_init_le t (max a b))
    · exact ih (max a c) h

theorem foldl_max_mem (t : List ℚ) (a : ℚ) : t.foldl max a = a ∨ t.foldl max a ∈ t := by
  induction t generalizing a with
  | nil => exact Or.inl rfl
  | cons b t ih =>
    rcases ih (max a b) with h | h
    · rcases max_choice a b with hab | hab
      · exact Or.inl (by rw [List.foldl_cons, h, hab])
      · exact Or.inr (by rw [List.foldl_cons, h, hab]; exact List.mem_cons_self b t)
    · exact Or.inr (List.mem_cons_of_mem b h)

theorem pymax_spec (l : List ℚ) (m : ℚ) (h : pymax l = some m) :
    m ∈ l ∧ ∀ b ∈ l, b ≤ m := by
  match l with
  | [] => simp [pymax] at h
  | a :: t =>
    simp only [pymax, Option.some.injEq] at h
    subst h
    constructor
    · rcases foldl_max_mem t a with h | h
      · rw [h]; exact List.mem_cons_self a t
      · exact List.mem_cons_of_mem a h
    · intro b hb
      rcases List.mem_cons.mp hb with h | h
      · subst h; exact foldl_max_init_le t b
      · exact foldl_max_mem_le t a b h

theorem pymax_eq_of (l : List ℚ) (m : ℚ) (hmem : m ∈ l)
    (hle : ∀ b ∈ l, b ≤ m) : pymax l = some m := by
  match l with
  | [] => cases hmem
  | a :: t =>
    obtain ⟨hmem2, hle2⟩ := pymax_spec (a :: t) (t.foldl max a) rfl
    exact congrArg some (le_antisymm (hle2 m hmem) (hle _ hmem2)).symm ▸ rfl

theorem pymin_ne_nil (l : List ℚ) (hne : l ≠ []) : ∃ m, pymin l = some m := by
  match l with
  | [] => exact absurd rfl hne
  | a :: t => exact ⟨t.foldl min a, rfl⟩

theorem pymax_ne_nil (l : List ℚ) (hne : l ≠ []) : ∃ m, pymax l = some m := by
  match l with
  | [] => exact absurd rfl hne
  | a :: t => exact ⟨t.foldl max a, rfl⟩

theorem argminIdx_some_lt (l : List ℚ) (hne : l ≠ []) :
    ∃ i, argminIdx l = some i ∧ i < l.length := by
  obtain ⟨m, hm⟩ := pymin_ne_nil l hne
  refine ⟨l.findIdx (fun a => decide (a = m)), by simp [argminIdx, hm], ?_⟩
  exact List.findIdx_lt_length_of_exists ⟨m, (pymin_spec l m hm).1, by simp⟩

theorem index_of_some_lt (arr : List ℚ) (val : ℚ) (hne : arr ≠ []) :
    ∃ i, index_of arr val = some i ∧ i < arr.length := by
  obtain ⟨m, hm⟩ := pymin_ne_nil arr hne
  by_cases hv : val < m
  · refine ⟨0, by simp [index_of, hm, hv], ?_⟩
    cases arr with
    | nil => exact absurd rfl hne
    | cons a t => simp
  · have hmapne : arr.map (fun a => |a - val|) ≠ [] := by
      cases arr with
      | nil => exact absurd rfl hne
      | cons a t => simp
    obtain ⟨i, hi, hilt⟩ := argminIdx_some_lt (arr.map (fun a => |a - val|)) hmapne
    refine ⟨i, by simp [index_of, hm, hv, hi], ?_⟩
    simpa using hilt

theorem get?_eq_some_getD (xs : List ℚ) (i : ℕ) (h : i < xs.length) :
    xs.get? i = some (xs.getD i 0) := by
  rw [List.getD_eq_getElem xs 0 h, List.get?_eq_getElem?]
  exact List.getElem?_eq_getElem h

theorem getLastD_mem {α : Type} (l : List α) (d : α) (h : l ≠ []) : l.getLastD d ∈ l := by
  rw [List.getLastD_eq_getLast?, List.getLast?_eq_getLast l h]
  exact List.getLast_mem h

theorem headD_mem {α : Type} (l : List α) (d : α) (h : l ≠ []) : l.headD d ∈ l := by
  cases l with
  | nil => exact absurd rfl h
  | cons a t => simp [List.headD]

theorem estimate_peak_eval (y xs : List ℚ) (negative : Bool) (maxy miny maxx minx : ℚ)
    (h1 : pymax y = some maxy) (h2 : pymin y = some miny)
    (h3 : pymax xs = some maxx) (h4 : pymin xs = some minx)
    (hlen : xs.length = y.length) :
    ∃ cen, estimate_peak y (some xs) negative =
      some ((if negative then -(maxy - miny) * (3 / 2) else (maxy - miny) * (3 / 2)),
        cen, specWidth y xs negative maxy miny maxx minx) := by
  have hyne : y ≠ [] := by
    cases y with
    | nil => simp [pymax] at h1
    | cons a t => simp
  obtain ⟨i, hi, hilt⟩ := index_of_some_lt y maxy hyne
  obtain ⟨j, hj, hjlt⟩ := index_of_some_lt y miny hyne
  have hixs : i < xs.length := by omega
  refine ⟨xs.get ⟨i, hixs⟩, ?_⟩
  have hget : xs.get? i = some (xs.get ⟨i, hixs⟩) := List.get?_eq_get hixs
  cases negative with
  | false =>
    simp only [estimate_peak, h1, h2, h3, h4, hi, hget, Option.bind_eq_bind,
      Option.some_bind, if_false, Bool.false_eq_true, ite_false, pure, specWidth,
      halfmaxIdxs]
    set hm := (List.range y.length).filter
      (fun k => decide ((maxy + miny) / 2 < y.getD k 0)) with hhm
    by_cases h5 : 2 < hm.length
    · have hmne : hm ≠ [] := by
        intro h0
        rw [h0] at h5
        simp at h5
      have hlast : hm.getLastD 0 < xs.length := by
        have := List.mem_range.mp (List.mem_filter.mp (getLastD_mem hm 0 hmne)).1
        omega
      have hhead : hm.headD 0 < xs.length := by
        have := List.mem_range.mp (List.mem_filter.mp (headD_mem hm 0 hmne)).1
        omega
      simp only [if_pos h5, get?_eq_some_getD xs _ hlast, get?_eq_some_getD xs _ hhead,
        Option.some_bind]
    · simp only [if_neg h5]
  | true =>
    simp only [estimate_peak, h1, h2, h3, h4, hi, hj, hget, Option.bind_eq_bind,
      Option.some_bind, if_true, pure, specWidth, halfmaxIdxs]
    set hm := (List.range y.length).filter
      (fun k => decide (y.getD k 0 < (maxy + miny) / 2)) with hhm
    by_cases h5 : 2 < hm.length
    · have hmne : hm ≠ [] := by
        intro h0
        rw [h0] at h5
        simp at h5
      have hlast : hm.getLastD 0 < xs.length := by
        have := List.mem_range.mp (List.mem_filter.mp (getLastD_mem hm 0 hmne)).1
        omega
      have hhead : hm.headD 0 < xs.length := by
        have := List.mem_range.mp (List.mem_filter.mp (headD_mem hm 0 hmne)).1
        omega
      simp only [if_pos h5, get?_eq_some_getD xs _ hlast, get?_eq_some_getD xs _ hhead,
        Option.some_bind]
    · simp only [if_neg h5]

theorem findIdx_map {α β : Type} (f : α → β) (p : β → Bool) (l : List α) :
    (l.map f).findIdx p = l.findIdx (fun a => p (f a)) := by
  induction l with
  | nil => rfl
  | cons a t ih => simp [List.findIdx_cons, ih]

theorem findIdx_congr {α : Type} (p q : α → Bool) (l : List α)
    (h : ∀ a ∈ l, p a = q a) : l.findIdx p = l.findIdx q := by
  induction l with
  | nil => rfl
  | cons a t ih =>
    rw [List.findIdx_cons, List.findIdx_cons, h a (List.mem_cons_self a t),
      ih (fun b hb => h b (List.mem_cons_of_mem a hb))]

theorem string_append_cancel {p a b : String} (h : p ++ a = p ++ b) : a = b := by
  have h2 : (p ++ a).data = (p ++ b).data := congrArg String.data h
  simp only [String.data_append] at h2
  exact String.ext (List.append_cancel_left h2)

theorem applyConstraint_target_eq (c : Constraint) (s : Store)
    (hne : c.operand ≠ c.target) :
    (applyConstraint c s) c.target = c.factor * (applyConstraint c s) c.operand := by
  unfold applyConstraint setParam
  simp [hne]

theorem sigma_ne_fwhm (pfx : String) : pfx ++ "sigma" ≠ pfx ++ "fwhm" := by
  intro h
  have := string_append_cancel h
  simp at this

/-- C1: the power-law guess never performs the log-log regression, because
the name log referenced in the try body is unbound in models.py; on data
generated as y = 2 x^3 with strictly positive x = [1, 2, 4],
data = [2, 16, 128], the fallback runs for every choice of the ambient
log/exp functions, yielding exponent = 1 (not approximately 3) and
amplitude = exp(log(|128 + 1e-9|)), which is about 128 (not approximately
2).  This contradicts the claim that the fallback runs only on a failure of
the regression on the data. -/
theorem powerLawGuess_always_falls_back_on_cubic (log exp : ℚ → ℚ) :
    powerLawGuess "" log exp [2, 16, 128] (some [1, 2, 4]) =
      some ⟨true, [("amplitude", exp (log (|(128 : ℚ) + 1e-9|))), ("exponent", 1)]⟩ := by
  norm_num [powerLawGuess, pymax, max_def]

/-- C2: on y = [5, 1, 3], x = [10, 20, 30] with negative = true,
estimate_peak returns center 10, the x value at the index of the maximum of
y: the center is assigned from the maximum index before the negative branch
runs, and the index of the minimum recomputed on line 35 is a dead store.
The claim says the center should be the x value at the index of the minimum
of y, which is 20. -/
theorem estimate_peak_negative_center_is_argmax :
    estimate_peak [5, 1, 3] (some [10, 20, 30]) true = some (-6, 10, 10 / 3) := by
  norm_num [estimate_peak, pymax, pymin, index_of, argminIdx, List.findIdx_cons,
    List.range_succ, max_def, min_def]

/-- C3: with the model prefix "a_", the power-law guess writes exactly the
keys "amplitude" and "exponent" and the exponential guess exactly
"amplitude" and "decay": the prefix never appears in the written names
(self.params is indexed with bare literals in both methods, unlike every
other model in models.py, which interpolates self.prefix).  This
contradicts the claim that every written name is prefix + baseName. -/
theorem guess_writes_ignore_model_namespace (log exp : ℚ → ℚ) :
    ((powerLawGuess "a_" log exp [2, 16, 128] (some [1, 2, 4])).map
        (fun r => r.writes.map Prod.fst) = some ["amplitude", "exponent"]) ∧
    ((exponentialGuess "a_" log exp [2, 16, 128] none).map
        (fun r => r.writes.map Prod.fst) = some ["amplitude", "decay"]) := by
  constructor
  · norm_num [powerLawGuess, pymax, max_def]
  · norm_num [exponentialGuess, exponentialGuessRaw, polyfit1, pymax, max_def]

/-- C4 counterexample: PolynomialModel accepts degree -1, because the
source check only rejects non-int degrees and degrees above MAX_DEGREE = 7;
the claim states that degree -1 is rejected. -/
theorem polynomial_accepts_degree_neg_one :
    polynomialDegreeAccepted (PyNum.int (-1)) = true := by decide

/-- C4 (amended): polynomial construction proceeds exactly when the
requested degree is an integer not exceeding 7; degree 8 and non-integer
degrees such as 2.5 are rejected, and every integer degree at most 7 is
accepted, including 0 through 7 and negative integers such as -1. -/
theorem polynomialDegreeAccepted_iff (d : PyNum) :
    polynomialDegreeAccepted d = true ↔ ∃ n : ℤ, d = PyNum.int n ∧ n ≤ 7 := by
  cases d with
  | int n => simp [polynomialDegreeAccepted]
  | float q => simp [polynomialDegreeAccepted]

/-- C5: whenever the supplied independent-variable name list does not have
exactly one entry, model construction stops with the DimensionalError
message before the guess is reached, and the error is surfaced to the
caller unchanged. -/
theorem dimensional_error_fails_fast {α : Type} (ivars : List String)
    (g : Unit → α) (h : ivars.length ≠ 1) :
    modelConstructThenGuess ivars g =
      Except.error ("This model requires exactly one independent variable.") := by
  simp [modelConstructThenGuess, _validate_1d, h]

/-- Witness for C5 at the concrete two-entry list ["x", "y"]. -/
theorem dimensional_error_fails_fast_witness :
    (["x", "y"] : List String).length ≠ 1 ∧
      modelConstructThenGuess ["x", "y"] (fun _ => (0 : ℚ)) =
        Except.error ("This model requires exactly one independent variable.") :=
  ⟨by decide, dimensional_error_fails_fast ["x", "y"] (fun _ => (0 : ℚ)) (by decide)⟩

/-- C6 counterexample: on data = [1, 1], x = [0, 1] the regression succeeds
with fitted slope exactly 0 (shown here with np.log instantiated to the
identity; the slope is 0 for every log since both data values are equal),
and the except branch is not taken: the third component is false and sval
stays 0 rather than the fallback slope 1.  Downstream the code computes
decay = -1/0; the claim that a fitted slope of (approximately) 0 triggers
the fallback slope = 1 (decay = -1) is false. -/
theorem exponential_zero_slope_no_fallback :
    exponentialGuessRaw id [1, 1] (some [0, 1]) = some (0, 1 + 1e-15, false) := by
  norm_num [exponentialGuessRaw, polyfit1, pymax, max_def]

/-- C6 (amended): the exponential guess takes decay = -1/slope and
amplitude = exp(intercept) from the linear regression of x against
log(|data| + 1e-15) whenever np.polyfit succeeds (x present, lengths
matching, data non-empty, non-singular normal equations), without any
special-casing of a fitted slope near 0; the fallback slope = 1 (decay =
-1/1) with the power-law fallback amplitude exp(log(|max(data) + 1e-9|)) is
used when the regression raises, e.g. whenever x is absent. -/
theorem exponentialGuess_fallback_policy (pfx : String) (log exp : ℚ → ℚ)
    (data xs : List ℚ) (m : ℚ)
    (hlen : xs.length = data.length) (hne : data ≠ [])
    (hden : ((xs.length : ℚ)) * (xs.map (fun a => a * a)).sum - xs.sum * xs.sum ≠ 0)
    (hmax : pymax data = some m) :
    (∃ sval oval,
        polyfit1 (some xs) (data.map (fun v => log (|v| + 1e-15))) = some (sval, oval) ∧
        exponentialGuess pfx log exp data (some xs) =
          some ⟨false, [("amplitude", exp oval), ("decay", -1 / sval)]⟩) ∧
    exponentialGuess pfx log exp data none =
      some ⟨true, [("amplitude", exp (log (|m + 1e-9|))), ("decay", -1 / 1)]⟩ := by
  have hpos : 0 < data.length := by
    cases data with
    | nil => exact absurd rfl hne
    | cons a t => simp
  have hcond : xs.length = (data.map (fun v => log (|v| + 1e-15))).length ∧
      0 < (data.map (fun v => log (|v| + 1e-15))).length := by
    constructor
    · simpa using hlen
    · simpa using hpos
  have hlen2 : ((data.map (fun v => log (|v| + 1e-15))).length : ℚ) = (xs.length : ℚ) := by
    simp [hlen]
  constructor
  · have hp : ∃ p, polyfit1 (some xs) (data.map (fun v => log (|v| + 1e-15))) = some p := by
      simp only [polyfit1, if_pos hcond, hlen2, if_neg hden]
      exact ⟨_, rfl⟩
    obtain ⟨p, hp⟩ := hp
    refine ⟨p.1, p.2, hp, ?_⟩
    simp [exponentialGuess, exponentialGuessRaw, hp]
  · simp [exponentialGuess, exponentialGuessRaw, polyfit1, hmax]

/-- Witness for C6 at data = [1, 2], x = [0, 1] with log = exp = id. -/
theorem exponentialGuess_fallback_policy_witness :
    (([0, 1] : List ℚ).length = ([1, 2] : List ℚ).length ∧ ([1, 2] : List ℚ) ≠ [] ∧
      ((([0, 1] : List ℚ).length : ℚ)) * (([0, 1] : List ℚ).map (fun a => a * a)).sum -
        ([0, 1] : List ℚ).sum * ([0, 1] : List ℚ).sum ≠ 0 ∧
      pymax [1, 2] = some 2) ∧
    ((∃ sval oval,
        polyfit1 (some [0, 1]) (([1, 2] : List ℚ).map (fun v => id (|v| + 1e-15))) =
          some (sval, oval) ∧
        exponentialGuess "" id id [1, 2] (some [0, 1]) =
          some ⟨false, [("amplitude", id oval), ("decay", -1 / sval)]⟩) ∧
      exponentialGuess "" id id [1, 2] none =
        some ⟨true, [("amplitude", id (id (|(2 : ℚ) + 1e-9|))), ("decay", -1 / 1)]⟩) :=
  ⟨⟨by decide, by decide, by norm_num, by decide⟩,
    exponentialGuess_fallback_policy "" id id [1, 2] [0, 1] 2 (by decide) (by decide)
      (by norm_num) (by decide)⟩

/-- C7: for each of the Gaussian, Lorentzian and Voigt shapes, construction
registers the derived fwhm parameter prefix+fwhm bound to factor * sigma
with factors 2.354820, 2.0 and 3.60131 respectively; the shared guess
procedure never writes prefix+fwhm; and after applying the guess writes and
recomputing the constraint - or after any manual sigma update followed by
the recomputation - the stored fwhm equals factor times the stored sigma. -/
theorem fwhm_tracks_sigma (pfx : String) (data : List ℚ) (x : Option (List ℚ))
    (negative : Bool) (ws : List (String × ℚ)) (s : Store) (v : ℚ)
    (hws : peakGuessWrites pfx data x negative = some ws) :
    ((pfx ++ "fwhm") ∉ ws.map Prod.fst) ∧
    (∀ c ∈ [gaussianFwhm pfx, lorentzianFwhm pfx, voigtFwhm pfx],
      (applyConstraint c (applyWrites s ws)) (pfx ++ "fwhm") =
        c.factor * (applyConstraint c (applyWrites s ws)) (pfx ++ "sigma") ∧
      (applyConstraint c (setParam (applyWrites s ws) (pfx ++ "sigma") v)) (pfx ++ "fwhm") =
        c.factor * (applyConstraint c (setParam (applyWrites s ws) (pfx ++ "sigma") v))
          (pfx ++ "sigma")) ∧
    (gaussianFwhm pfx).factor = 2.354820 ∧ (lorentzianFwhm pfx).factor = 2 ∧
      (voigtFwhm pfx).factor = 3.60131 := by
  obtain ⟨t, _, hmap⟩ := Option.map_eq_some'.mp hws
  refine ⟨?_, ?_, rfl, rfl, rfl⟩
  · rw [← hmap]
    intro hmem
    simp only [List.map_cons, List.map_nil, List.mem_cons, List.not_mem_nil] at hmem
    rcases hmem with h | h | h | h
    · exact absurd (string_append_cancel h) (by simp)
    · exact absurd (string_append_cancel h) (by simp)
    · exact absurd (string_append_cancel h) (by simp)
    · exact h
  · intro c hc
    have hc2 : c.target = pfx ++ "fwhm" ∧ c.operand = pfx ++ "sigma" := by
      rcases List.mem_cons.mp hc with h | h
      · exact ⟨by rw [h]; rfl, by rw [h]; rfl⟩
      · rcases List.mem_cons.mp h with h | h
        · exact ⟨by rw [h]; rfl, by rw [h]; rfl⟩
        · rcases List.mem_cons.mp h with h | h
          · exact ⟨by rw [h]; rfl, by rw [h]; rfl⟩
          · cases h
    obtain ⟨ht, ho⟩ := hc2
    constructor
    · rw [← ht, ← ho]
      exact applyConstraint_target_eq c _ (by rw [ht, ho]; exact sigma_ne_fwhm pfx)
    · rw [← ht, ← ho]
      exact applyConstraint_target_eq c _ (by rw [ht, ho]; exact sigma_ne_fwhm pfx)

/-- Witness for C7 at prefix g_, data [1, 2, 1], x [0, 1, 2]. -/
theorem fwhm_tracks_sigma_witness :
    (peakGuessWrites "g_" [1, 2, 1] (some [0, 1, 2]) false =
      some [("g_amplitude", 3 / 2), ("g_center", 1), ("g_sigma", 1 / 3)]) ∧
    (("g_" ++ "fwhm") ∉
        ([("g_amplitude", (3 : ℚ) / 2), ("g_center", 1), ("g_sigma", 1 / 3)].map Prod.fst) ∧
      (∀ c ∈ [gaussianFwhm "g_", lorentzianFwhm "g_", voigtFwhm "g_"],
        (applyConstraint c (applyWrites (fun _ => 0)
            [("g_amplitude", 3 / 2), ("g_center", 1), ("g_sigma", 1 / 3)])) ("g_" ++ "fwhm") =
          c.factor * (applyConstraint c (applyWrites (fun _ => 0)
            [("g_amplitude", 3 / 2), ("g_center", 1), ("g_sigma", 1 / 3)])) ("g_" ++ "sigma") ∧
        (applyConstraint c (setParam (applyWrites (fun _ => 0)
            [("g_amplitude", 3 / 2), ("g_center", 1), ("g_sigma", 1 / 3)])
            ("g_" ++ "sigma") 5)) ("g_" ++ "fwhm") =
          c.factor * (applyConstraint c (setParam (applyWrites (fun _ => 0)
            [("g_amplitude", 3 / 2), ("g_center", 1), ("g_sigma", 1 / 3)])
            ("g_" ++ "sigma") 5)) ("g_" ++ "sigma")) ∧
      (gaussianFwhm "g_").factor = 2.354820 ∧ (lorentzianFwhm "g_").factor = 2 ∧
        (voigtFwhm "g_").factor = 3.60131) :=
  ⟨by
      norm_num [peakGuessWrites, estimate_peak, pymax, pymin, index_of, argminIdx,
        List.findIdx_cons, List.range_succ, max_def, min_def]
      decide,
    fwhm_tracks_sigma "g_" [1, 2, 1] (some [0, 1, 2]) false
      [("g_amplitude", 3 / 2), ("g_center", 1), ("g_sigma", 1 / 3)] (fun _ => 0) 5
      (by
        norm_num [peakGuessWrites, estimate_peak, pymax, pymin, index_of, argminIdx,
          List.findIdx_cons, List.range_succ, max_def, min_def]
        decide)⟩

/-- C8: for every non-empty constant y signal with x supplied (and long
enough), estimate_peak returns amplitude 0 and width (maxx - minx)/6,
regardless of the negative flag. -/
theorem estimate_peak_flat_signal (y xs : List ℚ) (negative : Bool) (c maxx minx : ℚ)
    (hy : y ≠ []) (hc : ∀ v ∈ y, v = c)
    (h3 : pymax xs = some maxx) (h4 : pymin xs = some minx)
    (hlen : xs.length = y.length) :
    ∃ cen, estimate_peak y (some xs) negative = some (0, cen, (maxx - minx) / 6) := by
  have hcm : c ∈ y := by
    cases y with
    | nil => exact absurd rfl hy
    | cons a t => exact (hc a (List.mem_cons_self a t)) ▸ List.mem_cons_self a t
  have h1 : pymax y = some c := pymax_eq_of y c hcm (fun b hb => le_of_eq (hc b hb))
  have h2 : pymin y = some c := pymin_eq_of y c hcm (fun b hb => ge_of_eq (hc b hb))
  obtain ⟨cen, h⟩ := estimate_peak_eval y xs negative c c maxx minx h1 h2 h3 h4 hlen
  refine ⟨cen, ?_⟩
  rw [h]
  have key : ∀ i ∈ List.range y.length, y.getD i 0 = c := by
    intro i hi
    have hilt : i < y.length := List.mem_range.mp hi
    rw [List.getD_eq_getElem y 0 hilt]
    exact hc _ (y.getElem_mem hilt)
  have hmid : (c + c) / 2 = c := by ring
  have hhm : halfmaxIdxs y negative c c = [] := by
    cases negative with
    | false =>
      simp only [halfmaxIdxs, Bool.false_eq_true, ite_false]
      refine List.filter_eq_nil_iff.mpr (fun i hi => ?_)
      simp only [key i hi, hmid, decide_eq_true_eq]
      exact lt_irrefl c
    | true =>
      simp only [halfmaxIdxs, ite_true]
      refine List.filter_eq_nil_iff.mpr (fun i hi => ?_)
      simp only [key i hi, hmid, decide_eq_true_eq]
      exact lt_irrefl c
  have hamp : (if negative then -(c - c) * (3 / 2) else (c - c) * (3 / 2)) = (0 : ℚ) := by
    cases negative <;> norm_num
  have hsw : specWidth y xs negative c c maxx minx = (maxx - minx) / 6 := by
    simp [specWidth, hhm]
  rw [hamp, hsw]

/-- Witness for C8 at the flat signal y = [5, 5, 5], x = [1, 2, 4]. -/
theorem estimate_peak_flat_signal_witness :
    (([5, 5, 5] : List ℚ) ≠ [] ∧ (∀ v ∈ ([5, 5, 5] : List ℚ), v = 5) ∧
      pymax [1, 2, 4] = some 4 ∧ pymin [1, 2, 4] = some 1 ∧
      ([1, 2, 4] : List ℚ).length = ([5, 5, 5] : List ℚ).length) ∧
    ∃ cen, estimate_peak [5, 5, 5] (some [1, 2, 4]) true = some (0, cen, ((4 : ℚ) - 1) / 6) :=
  ⟨⟨by decide, by decide, by decide, by decide, by decide⟩,
    estimate_peak_flat_signal [5, 5, 5] [1, 2, 4] true 5 4 1 (by decide) (by decide)
      (by decide) (by decide) (by decide)⟩

/-- C9: with x supplied (same length as y, both non-empty), the width
returned by estimate_peak is exactly the specWidth rule: half the x-span
between the first and last half-max index, in sample order, when more than
two such indices exist, else the default (maxx - minx)/6; and fewer than 3
samples always yields the default. -/
theorem estimate_peak_width_rule (y xs : List ℚ) (negative : Bool)
    (maxy miny maxx minx : ℚ)
    (h1 : pymax y = some maxy) (h2 : pymin y = some miny)
    (h3 : pymax xs = some maxx) (h4 : pymin xs = some minx)
    (hlen : xs.length = y.length) :
    (∃ amp cen, estimate_peak y (some xs) negative =
        some (amp, cen, specWidth y xs negative maxy miny maxx minx)) ∧
    (y.length < 3 → specWidth y xs negative maxy miny maxx minx = (maxx - minx) / 6) := by
  constructor
  · obtain ⟨cen, h⟩ := estimate_peak_eval y xs negative maxy miny maxx minx h1 h2 h3 h4 hlen
    exact ⟨_, cen, h⟩
  · intro h3len
    have hb : (halfmaxIdxs y negative maxy miny).length ≤ y.length := by
      cases negative <;>
        simpa [halfmaxIdxs] using
          le_trans (List.length_filter_le _ (List.range y.length)) (by simp)
    simp only [specWidth]
    rw [if_neg (by omega)]

/-- Witness for C9 at y = [0, 3, 3, 3, 0], x = [0, 1, 2, 3, 4] (three
half-max indices, so the refinement branch applies). -/
theorem estimate_peak_width_rule_witness :
    (pymax [0, 3, 3, 3, 0] = some 3 ∧ pymin [0, 3, 3, 3, 0] = some 0 ∧
      pymax [0, 1, 2, 3, 4] = some 4 ∧ pymin [0, 1, 2, 3, 4] = some 0 ∧
      ([0, 1, 2, 3, 4] : List ℚ).length = ([0, 3, 3, 3, 0] : List ℚ).length) ∧
    ((∃ amp cen, estimate_peak [0, 3, 3, 3, 0] (some [0, 1, 2, 3, 4]) false =
        some (amp, cen, specWidth [0, 3, 3, 3, 0] [0, 1, 2, 3, 4] false 3 0 4 0)) ∧
      (([0, 3, 3, 3, 0] : List ℚ).length < 3 →
        specWidth [0, 3, 3, 3, 0] [0, 1, 2, 3, 4] false 3 0 4 0 = ((4 : ℚ) - 0) / 6)) :=
  ⟨⟨by decide, by decide, by decide, by decide, by decide⟩,
    estimate_peak_width_rule [0, 3, 3, 3, 0] [0, 1, 2, 3, 4] false 3 0 4 0 (by decide)
      (by decide) (by decide) (by decide) (by decide)⟩

/-- C10: when the target value is the minimum of arr, index_of does not
return via the val < min(arr) branch (the guard is m < m, which is false);
it returns the index of the first occurrence of the minimum element. -/
theorem index_of_min_first_occurrence (arr : List ℚ) (m : ℚ)
    (h : pymin arr = some m) :
    index_of arr m = some (arr.findIdx (fun a => decide (a = m))) := by
  obtain ⟨hmem, hle⟩ := pymin_spec arr m h
  have habs : pymin (arr.map (fun a => |a - m|)) = some 0 := by
    refine pymin_eq_of _ 0 (List.mem_map.mpr ⟨m, hmem, by simp⟩) ?_
    intro b hb
    obtain ⟨a, _, rfl⟩ := List.mem_map.mp hb
    exact abs_nonneg _
  simp only [index_of, h, lt_irrefl, if_neg (lt_irrefl m), argminIdx, habs]
  rw [findIdx_map]
  refine congrArg some (findIdx_congr _ _ arr (fun a ha => ?_))
  refine decide_eq_decide.mpr ?_
  rw [abs_eq_zero, sub_eq_zero]

/-- Witness for C10 at arr = [3, 1, 2, 1] whose minimum 1 first occurs at
index 1. -/
theorem index_of_min_first_occurrence_witness :
    pymin [3, 1, 2, 1] = some 1 ∧
      index_of [3, 1, 2, 1] 1 =
        some (([3, 1, 2, 1] : List ℚ).findIdx (fun a => decide (a = 1))) :=
  ⟨by decide, index_of_min_first_occurrence [3, 1, 2, 1] 1 (by decide)⟩

end Lmfit
